import Mathlib

/-!
Verification development for the MediGuard tamper-evident hash chain:
the canonical JSON encoder and SHA-256 hashing used by
`backend/services/hash_chain_service.py`, the append / verify operations of
`HashChainService`, the anchor committer of
`backend/services/blockchain_committer.py`, and the rebuild procedure of
`backend/database/rebuild_hash_chain.py`, embedded as executable Lean
functions, together with proofs and refutations of the specified properties.
-/

namespace MediGuard

/-! ## SHA-256 over byte lists (model of `hashlib.sha256`)

Bytes and 32-bit words are `Nat`s reduced modulo `2^8` / `2^32` explicitly.
-/

def w32 (n : Nat) : Nat := n % 4294967296

def rotr (n x : Nat) : Nat :=
  w32 (Nat.lor (Nat.shiftRight x n) (Nat.shiftLeft x (32 - n)))

def shr (n x : Nat) : Nat := Nat.shiftRight x n

def bxor (a b : Nat) : Nat := Nat.xor a b

def band (a b : Nat) : Nat := Nat.land a b

def bnot32 (a : Nat) : Nat := Nat.xor a 4294967295

def bigSigma0 (x : Nat) : Nat := bxor (bxor (rotr 2 x) (rotr 13 x)) (rotr 22 x)

def bigSigma1 (x : Nat) : Nat := bxor (bxor (rotr 6 x) (rotr 11 x)) (rotr 25 x)

def smallSigma0 (x : Nat) : Nat := bxor (bxor (rotr 7 x) (rotr 18 x)) (shr 3 x)

def smallSigma1 (x : Nat) : Nat := bxor (bxor (rotr 17 x) (rotr 19 x)) (shr 10 x)

def chFn (x y z : Nat) : Nat := bxor (band x y) (band (bnot32 x) z)

def majFn (x y z : Nat) : Nat := bxor (bxor (band x y) (band x z)) (band y z)

def sha256K : List Nat :=
  [1116352408, 1899447441, 3049323471, 3921009573, 961987163,
   1508970993, 2453635748, 2870763221, 3624381080, 310598401,
   607225278, 1426881987, 1925078388, 2162078206, 2614888103,
   3248222580, 3835390401, 4022224774, 264347078, 604807628,
   770255983, 1249150122, 1555081692, 1996064986, 2554220882,
   2821834349, 2952996808, 3210313671, 3336571891, 3584528711,
   113926993, 338241895, 666307205, 773529912, 1294757372,
   1396182291, 1695183700, 1986661051, 2177026350, 2456956037,
   2730485921, 2820302411, 3259730800, 3345764771, 3516065817,
   3600352804, 4094571909, 275423344, 430227734, 506948616,
   659060556, 883997877, 958139571, 1322822218, 1537002063,
   1747873779, 1955562222, 2024104815, 2227730452, 2361852424,
   2428436474, 2756734187, 3204031479, 3329325298]

def sha256H0 : List Nat :=
  [1779033703, 3144134277, 1013904242, 2773480762,
   1359893119, 2600822924, 528734635, 1541459225]

/-- Pad a byte message per SHA-256: append `0x80`, zeros to 56 mod 64, then
the 64-bit big-endian bit length. -/
def sha256Pad (msg : List Nat) : List Nat :=
  let len := msg.length
  let bitLen := len * 8
  let padZeros := (64 + 55 - len % 64) % 64
  let lenBytes := (List.range 8).map (fun i => (bitLen >>> ((7 - i) * 8)) % 256)
  msg ++ [0x80] ++ List.replicate padZeros 0 ++ lenBytes

/-- Split a list into chunks of `n` elements (fuel-based). -/
def chunksAux (n : Nat) : Nat → List Nat → List (List Nat)
  | 0, _ => []
  | _, [] => []
  | fuel + 1, l => l.take n :: chunksAux n fuel (l.drop n)

def chunks (n : Nat) (l : List Nat) : List (List Nat) := chunksAux n l.length l

/-- Combine 4 bytes big-endian into a 32-bit word. -/
def bytesToWords : List Nat → List Nat
  | b0 :: b1 :: b2 :: b3 :: rest =>
      (((b0 * 256 + b1) * 256 + b2) * 256 + b3) :: bytesToWords rest
  | _ => []

/-- Extend the 16 message-schedule words to 64. -/
def extendSchedule : Nat → List Nat → List Nat
  | 0, ws => ws
  | fuel + 1, ws =>
      let i := ws.length
      let nw := w32 (smallSigma1 (ws.getD (i - 2) 0) + ws.getD (i - 7) 0 +
                     smallSigma0 (ws.getD (i - 15) 0) + ws.getD (i - 16) 0)
      extendSchedule fuel (ws ++ [nw])

/-- One compression round. State is the 8-word list `[a,b,c,d,e,f,g,h]`. -/
def sha256Round (st : List Nat) (kw : Nat × Nat) : List Nat :=
  match st with
  | [a, b, c, d, e, f, g, h] =>
      let t1 := w32 (h + bigSigma1 e + chFn e f g + kw.1 + kw.2)
      let t2 := w32 (bigSigma0 a + majFn a b c)
      [w32 (t1 + t2), a, b, c, w32 (d + t1), e, f, g]
  | other => other

/-- Process one 64-byte block, updating the hash state. -/
def sha256Block (hs : List Nat) (block : List Nat) : List Nat :=
  let ws := extendSchedule 48 (bytesToWords block)
  let final := (sha256K.zip ws).foldl (fun st kw => sha256Round st kw) hs
  (hs.zip final).map (fun p => w32 (p.1 + p.2))

def hexChar (n : Nat) : Char :=
  if n < 10 then Char.ofNat (48 + n) else Char.ofNat (87 + n)

/-- 32-bit word as 8 lowercase hex characters. -/
def wordToHex (w : Nat) : List Char :=
  (List.range 8).map (fun i => hexChar ((w >>> ((7 - i) * 4)) % 16))

/-- SHA-256 of a byte list, as a lowercase hex string. -/
def sha256Hex (msg : List Nat) : String :=
  let hs := ((chunks 64 (sha256Pad msg)).foldl sha256Block sha256H0)
  ⟨(hs.map wordToHex).flatten⟩

/-! ## UTF-8 encoding (model of `str.encode('utf-8')`) -/

def utf8Char (c : Char) : List Nat :=
  let n := c.toNat
  if n < 0x80 then [n]
  else if n < 0x800 then
    [0xC0 + n / 64, 0x80 + n % 64]
  else if n < 0x10000 then
    [0xE0 + n / 4096, 0x80 + (n / 64) % 64, 0x80 + n % 64]
  else
    [0xF0 + n / 262144, 0x80 + (n / 4096) % 64, 0x80 + (n / 64) % 64,
     0x80 + n % 64]

def utf8Bytes (s : String) : List Nat := (s.data.map utf8Char).flatten

/-- SHA-256 hex digest of the UTF-8 encoding of a string: model of
`hashlib.sha256(s.encode('utf-8')).hexdigest()`. -/
def sha256HexOfString (s : String) : String := sha256Hex (utf8Bytes s)

/-! ## Python values and `json.dumps(..., sort_keys=True)`

`PyVal` models the JSON-serializable Python values stored in the
`input_features` / `prediction_result` JSONB columns.  Python floats are
modelled by their exact decimal value `m * 10^(-e)` together with the decimal
representation `repr` prints (the decimally-representable fragment actually
exchanged by the service); `dec m e` must be in normalized form (either
`e = 0` or `m % 10 ≠ 0`) to coincide with Python's shortest-round-trip
`repr`. -/

mutual
inductive PyVal : Type where
  | str : String → PyVal
  | int : Int → PyVal
  | dec : Int → Nat → PyVal
  | bool : Bool → PyVal
  | none : PyVal
  | dict : PyFields → PyVal
  deriving DecidableEq
inductive PyFields : Type where
  | nil : PyFields
  | cons : String → PyVal → PyFields → PyFields
  deriving DecidableEq
end

def hex4 (n : Nat) : List Char :=
  [hexChar ((n >>> 12) % 16), hexChar ((n >>> 8) % 16),
   hexChar ((n >>> 4) % 16), hexChar (n % 16)]

/-- Escape one character as `json.dumps` does with the default
`ensure_ascii=True`. -/
def jsonEscapeChar (c : Char) : List Char :=
  let n := c.toNat
  if c = '"' then ['\\', '"']
  else if c = '\\' then ['\\', '\\']
  else if n = 8 then ['\\', 'b']
  else if n = 9 then ['\\', 't']
  else if n = 10 then ['\\', 'n']
  else if n = 12 then ['\\', 'f']
  else if n = 13 then ['\\', 'r']
  else if n < 0x20 then '\\' :: 'u' :: hex4 n
  else if n ≤ 0x7E then [c]
  else if n < 0x10000 then '\\' :: 'u' :: hex4 n
  else
    ('\\' :: 'u' :: hex4 (0xD800 + (n - 0x10000) / 1024)) ++
    ('\\' :: 'u' :: hex4 (0xDC00 + (n - 0x10000) % 1024))

/-- A JSON string literal, double-quoted and escaped. -/
def jsonQuote (s : String) : String :=
  ⟨'"' :: (s.data.map jsonEscapeChar).flatten ++ ['"']⟩

/-- Decimal representation of the float `m * 10^(-e)` as Python's `repr`
prints it (a float always shows at least one fractional digit). -/
def decRepr (m : Int) (e : Nat) : String :=
  let a := m.natAbs
  let ip := a / 10 ^ e
  let fp := a % 10 ^ e
  let fs := toString fp
  let frac := if e = 0 then "0"
              else ⟨List.replicate (e - fs.length) '0'⟩ ++ fs
  (if m < 0 then "-" else "") ++ toString ip ++ "." ++ frac

/-- Strict code-point lexicographic comparison of character lists — the
comparison Python's `sorted` applies to string keys. -/
def strLtB : List Char → List Char → Bool
  | [], [] => false
  | [], _ :: _ => true
  | _ :: _, [] => false
  | a :: as, b :: bs =>
      if a.toNat < b.toNat then true
      else if b.toNat < a.toNat then false
      else strLtB as bs

/-- Strict ascending-key order on (already encoded) dict items. -/
def keyLtB (a b : String × String) : Bool := strLtB a.1.data b.1.data

/-- `a` may precede `b` in ascending key order: `b`'s key is not below
`a`'s. -/
def keyLe (a b : String × String) : Prop := keyLtB b a = false

def keyLt (a b : String × String) : Prop := keyLtB a b = true

/-- Insertion into an ascending list: `p` goes after every element whose
key does not exceed `p`'s. -/
def insertPair (p : String × String) :
    List (String × String) → List (String × String)
  | [] => [p]
  | q :: rest =>
      if keyLtB p q then p :: q :: rest else q :: insertPair p rest

/-- Key-ascending insertion sort: model of `sorted(d.items())` (keys of a
Python dict are distinct, so comparing the keys alone is exact). -/
def sortPairs : List (String × String) → List (String × String)
  | [] => []
  | p :: rest => insertPair p (sortPairs rest)

/-- `"key": value` item, then joined with `", "`: the default separators of
`json.dumps`. -/
def joinItems (l : List (String × String)) : String :=
  String.intercalate ", " (l.map (fun kv => jsonQuote kv.1 ++ ": " ++ kv.2))

mutual
/-- Model of `json.dumps(v, sort_keys=True)`: every dict's items are sorted
by key before serialization.  (Sorting the encoded `(key, bytes)` pairs by
key equals sorting the items first, since the key alone determines the
order for the duplicate-free dicts Python can represent.) -/
def encVal : PyVal → String
  | .str s => jsonQuote s
  | .int n => toString n
  | .dec m e => decRepr m e
  | .bool b => if b then "true" else "false"
  | .none => "null"
  | .dict fs => "\x7b" ++ joinItems (sortPairs (encFields fs)) ++ "\x7d"
def encFields : PyFields → List (String × String)
  | .nil => []
  | .cons k v r => (k, encVal v) :: encFields r
end

/-! ## The hash chain data model

`Prediction` mirrors the `predictions` row (`backend/models/database_models.py`);
its `timestamp` is kept as the ISO string: the service hashes the string passed
to `add_to_chain` and the verifier re-derives it via
`prediction.timestamp.isoformat()`, and `datetime.fromisoformat` /
`isoformat` round-trip on the strings `save_prediction` produces.
`ChainEntry` mirrors a `hash_chain` row; the list order is the ascending
auto-increment `id` order used by every query. -/

structure Prediction where
  id : String
  user_id : String
  timestamp : String
  input_features : PyVal
  prediction_result : PyVal
  deriving DecidableEq

structure ChainEntry where
  prediction_id : String
  previous_hash : Option String
  current_hash : String
  blockchain_tx_hash : Option String := Option.none
  blockchain_block_number : Option Nat := Option.none
  deriving DecidableEq

def payloadDict (input_features prediction_result : PyVal) : PyVal :=
  .dict (.cons "input_features" input_features
    (.cons "prediction_result" prediction_result .nil))

def optStrVal : Option String → PyVal
  | Option.none => PyVal.none
  | some s => .str s

/-- `HashChainService.generate_hash`: SHA-256 hex digest of the UTF-8 bytes of
`json.dumps({prediction_id, user_id, prediction_data, timestamp,
previous_hash}, sort_keys=True)`. -/
def generate_hash (prediction_id user_id : String) (prediction_data : PyVal)
    (timestamp : String) (previous_hash : Option String) : String :=
  sha256HexOfString (encVal (.dict (.cons "prediction_id" (.str prediction_id)
    (.cons "user_id" (.str user_id)
    (.cons "prediction_data" prediction_data
    (.cons "timestamp" (.str timestamp)
    (.cons "previous_hash" (optStrVal previous_hash) .nil)))))))

/-- `HashChainService.get_latest_hash`: `current_hash` of the row with the
highest `id`, or `None` on an empty chain. -/
def get_latest_hash (chain : List ChainEntry) : Option String :=
  chain.getLast?.map (fun e => e.current_hash)

/-- `HashChainService.add_to_chain`: read the head hash, hash the combined
payload, insert the new entry; returns the updated chain together with
`(current_hash, previous_hash)`. -/
def add_to_chain (chain : List ChainEntry) (prediction_id user_id : String)
    (input_features prediction_result : PyVal) (timestamp : String) :
    List ChainEntry × String × Option String :=
  let previous_hash := get_latest_hash chain
  let current_hash := generate_hash prediction_id user_id
      (payloadDict input_features prediction_result) timestamp previous_hash
  (chain ++ [{ prediction_id := prediction_id, previous_hash := previous_hash,
               current_hash := current_hash }],
   current_hash, previous_hash)

/-- The argument bundle of one `add_to_chain` call (what `save_prediction`
passes for one prediction). -/
structure PredInput where
  prediction_id : String
  user_id : String
  input_features : PyVal
  prediction_result : PyVal
  timestamp : String
  deriving DecidableEq

def appendOne (chain : List ChainEntry) (x : PredInput) : List ChainEntry :=
  (add_to_chain chain x.prediction_id x.user_id x.input_features
    x.prediction_result x.timestamp).1

/-- Chain obtained by appending the inputs in order to an empty chain. -/
def buildChain (inputs : List PredInput) : List ChainEntry :=
  inputs.foldl appendOne []

/-- The prediction row `save_prediction` stores for the same call: the same
id, user, features, result and timestamp it passes to `add_to_chain`. -/
def predOf (x : PredInput) : Prediction :=
  { id := x.prediction_id, user_id := x.user_id, timestamp := x.timestamp,
    input_features := x.input_features, prediction_result := x.prediction_result }

/-- The entry `add_to_chain` creates when the head hash is `prev`. -/
def entryFor (x : PredInput) (prev : Option String) : ChainEntry :=
  { prediction_id := x.prediction_id, previous_hash := prev,
    current_hash := generate_hash x.prediction_id x.user_id
      (payloadDict x.input_features x.prediction_result) x.timestamp prev }

/-- Forward recursion equivalent of repeated `add_to_chain`. -/
def chainFrom (prev : Option String) : List PredInput → List ChainEntry
  | [] => []
  | x :: xs => entryFor x prev :: chainFrom (some (entryFor x prev).current_hash) xs

/-! ## The chain verifier (`HashChainService.verify_chain`)

Errors are kept structured; `renderError` produces the exact strings the
Python code appends, and `verify_chain` returns the rendered list. -/

inductive VerifyError : Type where
  | predictionNotFound : Nat → String → VerifyError
  | previousHashMismatch : Nat → Option String → Option String → VerifyError
  | hashMismatch : Nat → String → String → VerifyError
  deriving DecidableEq

def optStr : Option String → String
  | Option.none => "None"
  | some s => s

def renderError : VerifyError → String
  | .predictionNotFound i pid =>
      "Entry " ++ toString (i + 1) ++ ": Prediction " ++ pid ++ " not found"
  | .previousHashMismatch i expected got =>
      "Entry " ++ toString (i + 1) ++ ": Previous hash mismatch. Expected " ++
        optStr expected ++ ", got " ++ optStr got
  | .hashMismatch i expected got =>
      "Entry " ++ toString (i + 1) ++ ": Hash mismatch. Expected " ++
        expected ++ ", got " ++ got

/-- `session.execute(select(Prediction).where(Prediction.id == pid))`,
`scalar_one_or_none()` (ids are unique in the table). -/
def findPrediction (preds : List Prediction) (pid : String) : Option Prediction :=
  preds.find? (fun p => p.id == pid)

/-- The `for i, entry in enumerate(entries)` loop of `verify_chain`:
`i` is the loop index, the third argument the maintained `previous_hash`.
On a missing prediction the loop `continue`s without advancing it. -/
def recomputedHash (p : Prediction) (stored_previous : Option String) : String :=
  generate_hash p.id p.user_id
    (payloadDict p.input_features p.prediction_result) p.timestamp
    stored_previous

def verifyEntries (preds : List Prediction) :
    List ChainEntry → Nat → Option String → List VerifyError
  | [], _, _ => []
  | e :: rest, i, prev =>
    match findPrediction preds e.prediction_id with
    | Option.none =>
        .predictionNotFound i e.prediction_id ::
          verifyEntries preds rest (i + 1) prev
    | some p =>
        (if 0 < i ∧ e.previous_hash ≠ prev then
          [.previousHashMismatch i prev e.previous_hash] else []) ++
        (if recomputedHash p e.previous_hash ≠ e.current_hash then
          [.hashMismatch i (recomputedHash p e.previous_hash) e.current_hash]
         else []) ++
        verifyEntries preds rest (i + 1) (some e.current_hash)

structure VerifyResult where
  valid : Bool
  message : String
  total_entries : Nat
  errors : List String
  deriving DecidableEq

/-- Structured error list of a full verification run. -/
def verifyErrorsOf (preds : List Prediction) (chain : List ChainEntry) :
    List VerifyError :=
  verifyEntries preds chain 0 Option.none

/-- `HashChainService.verify_chain`. -/
def verify_chain (preds : List Prediction) (chain : List ChainEntry) :
    VerifyResult :=
  if chain.isEmpty then
    { valid := true, message := "Hash chain is empty", total_entries := 0,
      errors := [] }
  else
    let errs := verifyErrorsOf preds chain
    { valid := errs.isEmpty, message := "Hash chain verification complete",
      total_entries := chain.length, errors := errs.map renderError }

/-! ## The anchor committer (`BlockchainCommitter.commit_pending_hashes`)

One cycle: select the entries with `blockchain_tx_hash IS NULL`, read the
latest hash, call `commit_hash_to_blockchain`, and on success run
`UPDATE hash_chain SET ... WHERE blockchain_tx_hash IS NULL`.  The session
runs at READ COMMITTED, so rows committed by concurrent `save_prediction`
sessions between the SELECT and the UPDATE are covered by the UPDATE's
`IS NULL` predicate; `midAppended` models those rows. -/

def pendingEntries (chain : List ChainEntry) : List ChainEntry :=
  chain.filter (fun e => e.blockchain_tx_hash.isNone)

/-- Effect of the `UPDATE ... WHERE blockchain_tx_hash IS NULL` row update. -/
def anchorIfPending (tx : String) (blk : Nat) (e : ChainEntry) : ChainEntry :=
  if e.blockchain_tx_hash.isNone then
    { e with blockchain_tx_hash := some tx, blockchain_block_number := some blk }
  else e

/-- Result of `BlockchainService.commit_hash_to_blockchain`. -/
structure CommitOutcome where
  success : Bool
  tx_hash : String
  block_number : Nat
  deriving DecidableEq

/-- `commit_pending_hashes`: `chain` is the database state the SELECT and the
latest-hash read see; `midAppended` the entries other sessions commit before
the UPDATE executes. -/
def commit_pending_hashes (chain midAppended : List ChainEntry)
    (outcome : CommitOutcome) : List ChainEntry :=
  if (pendingEntries chain).isEmpty then chain ++ midAppended
  else
    match get_latest_hash chain with
    | Option.none => chain ++ midAppended
    | some _ =>
        if outcome.success then
          (chain ++ midAppended).map
            (anchorIfPending outcome.tx_hash outcome.block_number)
        else chain ++ midAppended

/-- The cycle with its `try/except`: any exception rolls the session back,
persisting nothing, and is not re-raised. -/
def commit_cycle_guarded (chain : List ChainEntry)
    (outcome : Except String CommitOutcome) : List ChainEntry :=
  match outcome with
  | .error _ => chain
  | .ok oc => commit_pending_hashes chain [] oc

/-! ## The rebuild procedure (`rebuild_hash_chain.py`)

The loop replays the predictions (already in ascending
`(timestamp, created_at)` order) threading `previous_hash` through
`generate_hash`; the `timestamp` column is NOT NULL, so the
`if prediction.timestamp else created_at` fallback always takes the first
branch. -/

def rebuildLoop (prev : Option String) : List Prediction → List ChainEntry
  | [] => []
  | p :: ps =>
      let current := generate_hash p.id p.user_id
          (payloadDict p.input_features p.prediction_result) p.timestamp prev
      { prediction_id := p.id, previous_hash := prev, current_hash := current } ::
        rebuildLoop (some current) ps

/-- `rebuild_hash_chain` on an already-empty ledger: returns the rebuilt
entries and the boolean the script returns (`True` straight away when there
are no predictions, otherwise `verification_result["valid"]`). -/
def rebuild_hash_chain (preds : List Prediction) : List ChainEntry × Bool :=
  if preds.isEmpty then ([], true)
  else
    let chain := rebuildLoop Option.none preds
    (chain, (verify_chain preds chain).valid)

/-! ## Interleaving model for concurrent appends

`add_to_chain` is two database steps: the `get_latest_hash` SELECT
(line 94) and the INSERT of the entry computed from that read (lines
103–131).  Nothing in the service or the schema serializes the two steps
across sessions, so a schedule is any interleaving of the per-call steps. -/

inductive ApPhase : Type where
  | start : ApPhase
  | mid : Option String → ApPhase
  | done : ApPhase
  deriving DecidableEq

structure ConcState where
  chain : List ChainEntry
  threads : List (PredInput × ApPhase)
  deriving DecidableEq

/-- One step of the call `tid`: first step reads the head, second step
inserts the entry hashed against that stale read. -/
def stepThread (s : ConcState) (tid : Nat) : ConcState :=
  match s.threads.get? tid with
  | Option.none => s
  | some (x, phase) =>
    match phase with
    | .start =>
        { s with threads := s.threads.set tid (x, .mid (get_latest_hash s.chain)) }
    | .mid prev =>
        { chain := s.chain ++ [entryFor x prev],
          threads := s.threads.set tid (x, .done) }
    | .done => s

def runSchedule (s : ConcState) (sched : List Nat) : ConcState :=
  sched.foldl stepThread s

def initConc (xs : List PredInput) : ConcState :=
  { chain := [], threads := xs.map (fun x => (x, ApPhase.start)) }

/-! ## Logical equality of Python values

`logicalView` maps a value to a canonical form in which numerics (ints,
floats, bools — Python compares them by numeric value across types) become
their exact rational value and every dict is key-sorted; two values are
logically equal (Python `==`) iff their views coincide. -/

mutual
inductive LVal : Type where
  | str : String → LVal
  | num : ℚ → LVal
  | null : LVal
  | dict : LFields → LVal
  deriving DecidableEq
inductive LFields : Type where
  | nil : LFields
  | cons : String → LVal → LFields → LFields
  deriving DecidableEq
end

def linsert (k : String) (v : LVal) : LFields → LFields
  | .nil => .cons k v .nil
  | .cons k' v' r =>
      if strLtB k'.data k.data then .cons k' v' (linsert k v r)
      else .cons k v (.cons k' v' r)

def lsort : LFields → LFields
  | .nil => .nil
  | .cons k v r => linsert k v (lsort r)

mutual
def logicalView : PyVal → LVal
  | .str s => .str s
  | .int n => .num (mkRat n 1)
  | .dec m e => .num (mkRat m (10 ^ e))
  | .bool b => .num (mkRat (if b then 1 else 0) 1)
  | .none => .null
  | .dict fs => .dict (lsort (viewFields fs))
def viewFields : PyFields → LFields
  | .nil => .nil
  | .cons k v r => .cons k (logicalView v) (viewFields r)
end

/-- Python `==` on the modelled values. -/
def pyEq (a b : PyVal) : Prop := logicalView a = logicalView b

/-! ## Auxiliary definitions for the proofs -/

/-- Head hash after appending `xs` behind head hash `prev`. -/
def chainEnd (prev : Option String) : List PredInput → Option String
  | [] => prev
  | x :: xs => chainEnd (some (entryFor x prev).current_hash) xs

/-- The maintained `previous_hash` after the verifier loop processes a list
of entries (not advanced on a missing prediction, per the `continue`). -/
def runPrev (preds : List Prediction) :
    List ChainEntry → Option String → Option String
  | [], prev => prev
  | e :: rest, prev =>
    match findPrediction preds e.prediction_id with
    | Option.none => runPrev preds rest prev
    | some _ => runPrev preds rest (some e.current_hash)

/-- The `add_to_chain` argument bundle a stored prediction row gives rise to
(as the rebuild script replays it). -/
def inputOf (p : Prediction) : PredInput :=
  { prediction_id := p.id, user_id := p.user_id,
    input_features := p.input_features,
    prediction_result := p.prediction_result, timestamp := p.timestamp }

def fieldsToList : PyFields → List (String × PyVal)
  | .nil => []
  | .cons k v r => (k, v) :: fieldsToList r

/-- The chain-link invariant: first entry points at `prev`, every later entry
at its predecessor's `current_hash`. -/
def Linked : Option String → List ChainEntry → Prop
  | _, [] => True
  | prev, e :: rest => e.previous_hash = prev ∧ Linked (some e.current_hash) rest

instance : DecidablePred fun p : PyVal × PyVal => pyEq p.1 p.2 :=
  fun p => inferInstanceAs (Decidable (logicalView p.1 = logicalView p.2))

instance (a b : PyVal) : Decidable (pyEq a b) :=
  inferInstanceAs (Decidable (logicalView a = logicalView b))

/-- The prediction row after its payload has been mutated in place to
`(f', r')` (same id, user and timestamp). -/
def mutatedPred (x : PredInput) (f' r' : PyVal) : Prediction :=
  { id := x.prediction_id, user_id := x.user_id, timestamp := x.timestamp,
    input_features := f', prediction_result := r' }

/-! ## Concrete example data used by the witnesses -/

def exFeatures : PyVal :=
  .dict (.cons "bp" (.dec 1205 1) (.cons "heart_rate" (.int 72) .nil))

def exResult : PyVal :=
  .dict (.cons "disease" (.str "none") (.cons "score" (.dec 25 2) .nil))

def exInput1 : PredInput :=
  { prediction_id := "p1", user_id := "u1", input_features := exFeatures,
    prediction_result := exResult, timestamp := "2024-01-01T00:00:00" }

def exInput2 : PredInput :=
  { prediction_id := "p2", user_id := "u2", input_features := exFeatures,
    prediction_result := exResult, timestamp := "2024-01-02T00:00:00" }

def exPred1 : Prediction := predOf exInput1

def exPred2 : Prediction := predOf exInput2

def exEntryA : ChainEntry :=
  { prediction_id := "p1", previous_hash := Option.none, current_hash := "h1" }

def exEntryB : ChainEntry :=
  { prediction_id := "p2", previous_hash := some "h1", current_hash := "h2" }

/-! ## Chain construction lemmas -/

theorem get_latest_hash_concat (c : List ChainEntry) (e : ChainEntry) :
    get_latest_hash (c ++ [e]) = some e.current_hash := by
  simp [get_latest_hash]

theorem appendOne_eq (c : List ChainEntry) (x : PredInput) :
    appendOne c x = c ++ [entryFor x (get_latest_hash c)] := rfl

theorem foldl_appendOne (xs : List PredInput) :
    ∀ c : List ChainEntry,
      xs.foldl appendOne c = c ++ chainFrom (get_latest_hash c) xs := by
  induction xs with
  | nil => intro c; simp [chainFrom]
  | cons x xs ih =>
      intro c
      rw [List.foldl_cons, appendOne_eq, ih, chainFrom,
        get_latest_hash_concat, List.append_assoc]
      rfl

theorem buildChain_eq (inputs : List PredInput) :
    buildChain inputs = chainFrom Option.none inputs := by
  have h := foldl_appendOne inputs []
  simpa [buildChain, get_latest_hash] using h

theorem chainFrom_length (prev : Option String) (xs : List PredInput) :
    (chainFrom prev xs).length = xs.length := by
  induction xs generalizing prev with
  | nil => rfl
  | cons x xs ih => simp [chainFrom, ih]

theorem chainFrom_append (xs ys : List PredInput) (prev : Option String) :
    chainFrom prev (xs ++ ys) =
      chainFrom prev xs ++ chainFrom (chainEnd prev xs) ys := by
  induction xs generalizing prev with
  | nil => rfl
  | cons x xs ih => simp [chainFrom, chainEnd, ih]

theorem linked_chainFrom (xs : List PredInput) :
    ∀ prev, Linked prev (chainFrom prev xs) := by
  induction xs with
  | nil => intro prev; trivial
  | cons x xs ih => intro prev; exact ⟨rfl, ih _⟩

theorem linked_get_zero {prev : Option String} {l : List ChainEntry}
    (h : Linked prev l) (h0 : 0 < l.length) :
    (l.get ⟨0, h0⟩).previous_hash = prev := by
  cases l with
  | nil => simp at h0
  | cons e rest => exact h.1

theorem linked_get_succ {l : List ChainEntry} :
    ∀ {prev : Option String}, Linked prev l → ∀ i (h : i + 1 < l.length),
      (l.get ⟨i + 1, h⟩).previous_hash =
        some ((l.get ⟨i, Nat.lt_of_succ_lt h⟩).current_hash) := by
  induction l with
  | nil => intro prev _ i h; simp at h
  | cons e rest ih =>
      intro prev hl i h
      cases i with
      | zero =>
          have h0 : 0 < rest.length := by
            simpa using Nat.lt_of_succ_lt_succ h
          simpa using linked_get_zero hl.2 h0
      | succ j =>
          have hj : j + 1 < rest.length := Nat.lt_of_succ_lt_succ h
          simpa using ih hl.2 j hj

/-! ## Lookup lemmas -/

theorem findPrediction_nil (pid : String) :
    findPrediction [] pid = Option.none := rfl

theorem findPrediction_cons_self (p : Prediction) (ps : List Prediction) :
    findPrediction (p :: ps) p.id = some p := by
  simp [findPrediction]

theorem findPrediction_cons_ne (p : Prediction) (ps : List Prediction)
    (pid : String) (h : p.id ≠ pid) :
    findPrediction (p :: ps) pid = findPrediction ps pid := by
  simp [findPrediction, List.find?_cons_of_neg, h]

theorem findPrediction_append (ps qs : List Prediction) (pid : String) :
    findPrediction (ps ++ qs) pid =
      (findPrediction ps pid).or (findPrediction qs pid) := by
  simp [findPrediction]

theorem findPrediction_eq_none (ps : List Prediction) (pid : String)
    (h : pid ∉ ps.map Prediction.id) : findPrediction ps pid = Option.none := by
  rw [findPrediction, List.find?_eq_none]
  intro p hp
  simp only [beq_iff_eq]
  intro hid
  exact h (hid ▸ List.mem_map_of_mem Prediction.id hp)

theorem findPrediction_self (ps : List Prediction)
    (hnd : (ps.map Prediction.id).Nodup) :
    ∀ p ∈ ps, findPrediction ps p.id = some p := by
  induction ps with
  | nil => intro p hp; simp at hp
  | cons q qs ih =>
      rw [List.map_cons, List.nodup_cons] at hnd
      intro p hp
      rcases List.mem_cons.mp hp with h | h
      · subst h; exact findPrediction_cons_self p qs
      · have hne : q.id ≠ p.id := fun he =>
          hnd.1 (he ▸ List.mem_map_of_mem Prediction.id h)
        rw [findPrediction_cons_ne q qs p.id hne]
        exact ih hnd.2 p h

theorem map_id_map_predOf (xs : List PredInput) :
    (xs.map predOf).map Prediction.id = xs.map PredInput.prediction_id := by
  simp [Function.comp, predOf]

theorem findPrediction_map_predOf (inputs : List PredInput)
    (hnd : (inputs.map PredInput.prediction_id).Nodup) :
    ∀ x ∈ inputs,
      findPrediction (inputs.map predOf) x.prediction_id = some (predOf x) := by
  intro x hx
  have h := findPrediction_self (inputs.map predOf)
    (by rw [map_id_map_predOf]; exact hnd) (predOf x)
    (List.mem_map_of_mem predOf hx)
  exact h

/-! ## Verifier lemmas -/

theorem entryFor_prediction_id (x : PredInput) (prev : Option String) :
    (entryFor x prev).prediction_id = x.prediction_id := rfl

theorem entryFor_previous_hash (x : PredInput) (prev : Option String) :
    (entryFor x prev).previous_hash = prev := rfl

theorem verifyEntries_append (preds : List Prediction) (l₁ : List ChainEntry) :
    ∀ (l₂ : List ChainEntry) (i : Nat) (prev : Option String),
      verifyEntries preds (l₁ ++ l₂) i prev =
        verifyEntries preds l₁ i prev ++
          verifyEntries preds l₂ (i + l₁.length) (runPrev preds l₁ prev) := by
  induction l₁ with
  | nil => intro l₂ i prev; simp [verifyEntries, runPrev]
  | cons e rest ih =>
      intro l₂ i prev
      rw [List.cons_append, verifyEntries, verifyEntries, runPrev]
      cases hf : findPrediction preds e.prediction_id with
      | none =>
          simp only [hf, List.cons_append, List.length_cons]
          rw [ih]
          have : i + (rest.length + 1) = i + 1 + rest.length := by omega
          rw [this]
      | some p =>
          simp only [hf, List.append_assoc, List.length_cons]
          rw [ih]
          have : i + (rest.length + 1) = i + 1 + rest.length := by omega
          rw [this]

theorem runPrev_chainFrom (preds : List Prediction) (xs : List PredInput)
    (hfind : ∀ x ∈ xs,
      findPrediction preds x.prediction_id = some (predOf x)) :
    ∀ prev, runPrev preds (chainFrom prev xs) prev = chainEnd prev xs := by
  induction xs with
  | nil => intro prev; rfl
  | cons x xs ih =>
      intro prev
      rw [chainFrom, runPrev]
      have hx := hfind x (List.mem_cons_self x xs)
      rw [entryFor_prediction_id, hx]
      exact ih (fun y hy => hfind y (List.mem_cons_of_mem x hy)) _

theorem recomputedHash_predOf (x : PredInput) (prev : Option String) :
    recomputedHash (predOf x) prev = (entryFor x prev).current_hash := rfl

theorem verifyEntries_chainFrom_clean (preds : List Prediction)
    (xs : List PredInput)
    (hfind : ∀ x ∈ xs,
      findPrediction preds x.prediction_id = some (predOf x)) :
    ∀ (prev : Option String) (i : Nat),
      verifyEntries preds (chainFrom prev xs) i prev = [] := by
  induction xs with
  | nil => intro prev i; rfl
  | cons x xs ih =>
      intro prev i
      rw [chainFrom, verifyEntries]
      have hx := hfind x (List.mem_cons_self x xs)
      have hlink : ¬(0 < i ∧ (entryFor x prev).previous_hash ≠ prev) := by
        rw [entryFor_previous_hash]; simp
      have hhash :
          ¬(recomputedHash (predOf x) (entryFor x prev).previous_hash ≠
            (entryFor x prev).current_hash) := by
        rw [entryFor_previous_hash, recomputedHash_predOf]; simp
      rw [entryFor_prediction_id]
      simp only [hx]
      rw [if_neg hlink, if_neg hhash]
      simpa using ih (fun y hy => hfind y (List.mem_cons_of_mem x hy)) _ _

theorem verify_chain_spec (preds : List Prediction) (chain : List ChainEntry) :
    (verify_chain preds chain).valid = (verifyErrorsOf preds chain).isEmpty ∧
    (verify_chain preds chain).total_entries = chain.length ∧
    (verify_chain preds chain).errors =
      (verifyErrorsOf preds chain).map renderError := by
  unfold verify_chain
  split
  · next hc =>
      rw [List.isEmpty_iff] at hc
      subst hc
      exact ⟨rfl, rfl, rfl⟩
  · exact ⟨rfl, rfl, rfl⟩

theorem mem_chainFrom {e : ChainEntry} {xs : List PredInput} :
    ∀ {prev : Option String}, e ∈ chainFrom prev xs →
      ∃ x ∈ xs, e = entryFor x e.previous_hash := by
  induction xs with
  | nil => intro prev h; simp [chainFrom] at h
  | cons x xs ih =>
      intro prev h
      rw [chainFrom, List.mem_cons] at h
      rcases h with h | h
      · exact ⟨x, List.mem_cons_self x xs, by rw [h, entryFor_previous_hash]⟩
      · obtain ⟨y, hy, he⟩ := ih h
        exact ⟨y, List.mem_cons_of_mem x hy, he⟩

/-! ## The claims -/

/-- C1: every entry appended by `add_to_chain` stores as `current_hash` the
SHA-256 hex digest of the canonical (key-sorted JSON) encoding of
`{prediction_id, user_id, prediction_data, timestamp, previous_hash}` where
`prediction_data` combines the referenced prediction's stored
`input_features` and `prediction_result`; recomputing the hash from the
encoder, the stored `previous_hash` and the referenced prediction's payload
reproduces the stored `current_hash`. -/
theorem C1_hash_recompute (inputs : List PredInput)
    (hnd : (inputs.map PredInput.prediction_id).Nodup)
    (e : ChainEntry) (he : e ∈ buildChain inputs)
    (p : Prediction)
    (hp : findPrediction (inputs.map predOf) e.prediction_id = some p) :
    e.current_hash =
      sha256HexOfString (encVal (.dict (.cons "prediction_id" (.str p.id)
        (.cons "user_id" (.str p.user_id)
        (.cons "prediction_data" (payloadDict p.input_features p.prediction_result)
        (.cons "timestamp" (.str p.timestamp)
        (.cons "previous_hash" (optStrVal e.previous_hash) .nil))))))) ∧
    e.current_hash = recomputedHash p e.previous_hash := by
  rw [buildChain_eq] at he
  obtain ⟨x, hx, hex⟩ := mem_chainFrom he
  have hfind := findPrediction_map_predOf inputs hnd x hx
  have hid : e.prediction_id = x.prediction_id := by
    rw [hex, entryFor_prediction_id]
  rw [hid, hfind] at hp
  obtain rfl : predOf x = p := by injection hp
  constructor
  · rw [hex]; rfl
  · rw [hex]; rfl

/-- C1 witness: the second entry of a concrete two-append chain recomputes
to its stored hash. -/
theorem C1_hash_recompute_witness :
    ((buildChain [exInput1, exInput2]).get ⟨1, by decide⟩).current_hash =
      recomputedHash (predOf exInput2)
        ((buildChain [exInput1, exInput2]).get ⟨1, by decide⟩).previous_hash :=
  (C1_hash_recompute [exInput1, exInput2] (by decide)
    _ (List.get_mem _ 1 (by decide)) (predOf exInput2) (by decide)).2

/-- C2: in a chain produced by a sequence of appends, the entry at position 0
has a null `previous_hash` and each later entry's `previous_hash` is its
predecessor's `current_hash`. -/
theorem C2_chain_links (inputs : List PredInput) :
    (∀ h0 : 0 < (buildChain inputs).length,
      ((buildChain inputs).get ⟨0, h0⟩).previous_hash = Option.none) ∧
    (∀ i (h : i + 1 < (buildChain inputs).length),
      ((buildChain inputs).get ⟨i + 1, h⟩).previous_hash =
        some (((buildChain inputs).get ⟨i, Nat.lt_of_succ_lt h⟩).current_hash)) := by
  rw [buildChain_eq]
  have hl := linked_chainFrom inputs Option.none
  exact ⟨fun h0 => linked_get_zero hl h0, fun i h => linked_get_succ hl i h⟩

/-- C2 witness on a concrete two-entry chain. -/
theorem C2_chain_links_witness :
    ((buildChain [exInput1, exInput2]).get ⟨0, by decide⟩).previous_hash =
        Option.none ∧
    ((buildChain [exInput1, exInput2]).get ⟨1, by decide⟩).previous_hash =
      some (((buildChain [exInput1, exInput2]).get ⟨0, by decide⟩).current_hash) :=
  ⟨(C2_chain_links [exInput1, exInput2]).1 (by decide),
   (C2_chain_links [exInput1, exInput2]).2 0 (by decide)⟩

/-- C3: appending `N` (distinct) predictions sequentially to an empty chain
and verifying yields `valid = true`, `total_entries = N`, empty `errors`;
the empty chain is vacuously valid. -/
theorem C3_verify_after_append (inputs : List PredInput)
    (hnd : (inputs.map PredInput.prediction_id).Nodup) :
    (verify_chain (inputs.map predOf) (buildChain inputs)).valid = true ∧
    (verify_chain (inputs.map predOf) (buildChain inputs)).total_entries =
      inputs.length ∧
    (verify_chain (inputs.map predOf) (buildChain inputs)).errors = [] := by
  cases inputs with
  | nil => exact ⟨rfl, rfl, rfl⟩
  | cons x xs =>
      have hfind := findPrediction_map_predOf (x :: xs) hnd
      have hclean := verifyEntries_chainFrom_clean ((x :: xs).map predOf)
        (x :: xs) hfind Option.none 0
      obtain ⟨hv, ht, he⟩ :=
        verify_chain_spec ((x :: xs).map predOf) (buildChain (x :: xs))
      have hb := buildChain_eq (x :: xs)
      rw [hv, ht, he, hb]
      unfold verifyErrorsOf
      rw [hclean]
      exact ⟨rfl, chainFrom_length _ _, rfl⟩

/-- C3 witness at a concrete two-prediction run. -/
theorem C3_verify_after_append_witness :
    (verify_chain ([exInput1, exInput2].map predOf)
      (buildChain [exInput1, exInput2])).valid = true ∧
    (verify_chain ([exInput1, exInput2].map predOf)
      (buildChain [exInput1, exInput2])).total_entries = 2 :=
  ⟨(C3_verify_after_append [exInput1, exInput2] (by decide)).1,
   (C3_verify_after_append [exInput1, exInput2] (by decide)).2.1⟩

theorem rebuildLoop_eq_chainFrom (preds : List Prediction) :
    ∀ prev, rebuildLoop prev preds = chainFrom prev (preds.map inputOf) := by
  induction preds with
  | nil => intro prev; rfl
  | cons p ps ih =>
      intro prev
      rw [List.map_cons, rebuildLoop, chainFrom]
      exact congrArg _ (ih _)

theorem predOf_inputOf (p : Prediction) : predOf (inputOf p) = p := rfl

/-- C8: rebuilding on an already-empty ledger with the stored predictions
(in their replay order) produces a chain identical hash-for-hash to the
from-scratch chain built by `add_to_chain` over the same predictions in the
same order, and the script's return value is the Chain Verifier's pass/fail
result, which passes. -/
theorem C8_rebuild_equiv (preds : List Prediction)
    (hnd : (preds.map Prediction.id).Nodup) :
    (rebuild_hash_chain preds).1 = buildChain (preds.map inputOf) ∧
    (rebuild_hash_chain preds).2 =
      (verify_chain preds (rebuild_hash_chain preds).1).valid ∧
    (rebuild_hash_chain preds).2 = true := by
  have hfind : ∀ x ∈ preds.map inputOf,
      findPrediction preds x.prediction_id = some (predOf x) := by
    intro x hx
    obtain ⟨p, hp, rfl⟩ := List.mem_map.mp hx
    rw [predOf_inputOf]
    exact findPrediction_self preds hnd p hp
  cases preds with
  | nil => exact ⟨rfl, rfl, rfl⟩
  | cons p ps =>
      have h1 : (rebuild_hash_chain (p :: ps)).1 =
          buildChain ((p :: ps).map inputOf) := by
        rw [buildChain_eq]
        exact rebuildLoop_eq_chainFrom (p :: ps) Option.none
      refine ⟨h1, rfl, ?_⟩
      have hclean := verifyEntries_chainFrom_clean (p :: ps)
        ((p :: ps).map inputOf) hfind Option.none 0
      have h3 : (rebuild_hash_chain (p :: ps)).2 =
          (verify_chain (p :: ps)
            (chainFrom Option.none ((p :: ps).map inputOf))).valid := by
        show (verify_chain (p :: ps) (rebuildLoop Option.none (p :: ps))).valid = _
        rw [rebuildLoop_eq_chainFrom]
      obtain ⟨hv, _, _⟩ := verify_chain_spec (p :: ps)
        (chainFrom Option.none ((p :: ps).map inputOf))
      rw [h3, hv]
      unfold verifyErrorsOf
      rw [hclean]
      rfl

/-- C8 witness at two concrete stored predictions. -/
theorem C8_rebuild_equiv_witness :
    (rebuild_hash_chain [exPred1, exPred2]).1 =
      buildChain ([exPred1, exPred2].map inputOf) ∧
    (rebuild_hash_chain [exPred1, exPred2]).2 = true :=
  ⟨(C8_rebuild_equiv [exPred1, exPred2] (by decide)).1,
   (C8_rebuild_equiv [exPred1, exPred2] (by decide)).2.2⟩

/-- C5: the read-of-head and the insert are two separate, unsynchronized
database steps; the interleaving that runs both head reads before either
insert produces two entries with the same `previous_hash` (a fork), while
the serialized schedule reproduces the sequential `add_to_chain` chain.
This refutes the claim that the append is a single atomic/serialized
operation. -/
theorem C5_interleaved_append_forks_chain :
    ((runSchedule (initConc [exInput1, exInput2]) [0, 1, 0, 1]).chain.map
      (fun e => e.previous_hash)) = [Option.none, Option.none] ∧
    (runSchedule (initConc [exInput1, exInput2]) [0, 1, 0, 1]).chain.length
      = 2 ∧
    (runSchedule (initConc [exInput1, exInput2]) [0, 0, 1, 1]).chain =
      buildChain [exInput1, exInput2] := by
  refine ⟨by decide, by decide, ?_⟩
  rfl

theorem commit_pending_hashes_failure (chain mid : List ChainEntry)
    (oc : CommitOutcome) (hf : oc.success = false) :
    commit_pending_hashes chain mid oc = chain ++ mid := by
  unfold commit_pending_hashes
  split
  · rfl
  · split
    · rfl
    · simp [hf]

/-- C7: when the blockchain commit call reports failure the cycle performs
no update and leaves the chain exactly as it was (every pending entry still
has a null anchor reference), and an exception inside the cycle is caught
and rolled back rather than propagated, likewise leaving the state
untouched. -/
theorem C7_commit_failure_leaves_state (chain mid : List ChainEntry)
    (oc : CommitOutcome) (hf : oc.success = false) (msg : String) :
    commit_pending_hashes chain mid oc = chain ++ mid ∧
    commit_pending_hashes chain [] oc = chain ∧
    commit_cycle_guarded chain (.error msg) = chain := by
  refine ⟨commit_pending_hashes_failure chain mid oc hf, ?_, rfl⟩
  rw [commit_pending_hashes_failure chain [] oc hf, List.append_nil]

/-- C7 witness: a failing commit over one pending entry changes nothing. -/
theorem C7_commit_failure_leaves_state_witness :
    commit_pending_hashes [exEntryA] [] ⟨false, "0xdead", 7⟩ = [exEntryA] ∧
    commit_cycle_guarded [exEntryA] (.error "boom") = [exEntryA] :=
  ⟨(C7_commit_failure_leaves_state [exEntryA] [] ⟨false, "0xdead", 7⟩ rfl
      "boom").2.1,
   (C7_commit_failure_leaves_state [exEntryA] [] ⟨false, "0xdead", 7⟩ rfl
      "boom").2.2⟩

/-- C6 counterexample: an entry committed by another session between the
pending-snapshot SELECT and the UPDATE is anchored by the same cycle even
though it was not in the snapshot — the anchored set is a strict superset
of the pending snapshot, contradicting the claim. -/
theorem C6_superset_counterexample :
    pendingEntries [exEntryA] = [exEntryA] ∧
    exEntryB ∉ pendingEntries [exEntryA] ∧
    (commit_pending_hashes [exEntryA] [exEntryB]
        ⟨true, "0xabc", 1⟩).map (fun e => e.blockchain_tx_hash) =
      [some "0xabc", some "0xabc"] := by
  decide

/-- C6 (amended): a successful cycle anchors exactly the set of entries
that are unanchored at the time of the UPDATE — the pending snapshot plus
any entries appended between the snapshot read and the update — and never
modifies an already-anchored entry; an entry's anchor status transitions to
anchored at most once and never regresses. -/
theorem C6_anchor_update_frame (chain mid : List ChainEntry)
    (oc : CommitOutcome) (hp : pendingEntries chain ≠ [])
    (hs : oc.success = true) :
    commit_pending_hashes chain mid oc =
      (chain ++ mid).map (anchorIfPending oc.tx_hash oc.block_number) ∧
    (∀ e : ChainEntry, e.blockchain_tx_hash ≠ Option.none →
      anchorIfPending oc.tx_hash oc.block_number e = e) ∧
    (∀ e : ChainEntry, e.blockchain_tx_hash = Option.none →
      (anchorIfPending oc.tx_hash oc.block_number e).blockchain_tx_hash =
        some oc.tx_hash) := by
  have hc : chain ≠ [] := by
    intro h
    rw [h] at hp
    exact hp rfl
  refine ⟨?_, ?_, ?_⟩
  · unfold commit_pending_hashes
    rw [if_neg (by simpa [List.isEmpty_iff] using hp)]
    cases hgl : get_latest_hash chain with
    | none =>
        exact absurd
          (by simpa [get_latest_hash, List.getLast?_eq_none_iff] using hgl) hc
    | some h => simp [hs]
  · intro e hne
    unfold anchorIfPending
    rw [if_neg (by simpa [Option.isNone_iff_eq_none] using hne)]
  · intro e heq
    unfold anchorIfPending
    rw [if_pos (by simp [heq])]

/-- C6 witness: with one pending entry and one mid-cycle append, the cycle
equals the anchor-if-pending map over the update-time table. -/
theorem C6_anchor_update_frame_witness :
    commit_pending_hashes [exEntryA] [exEntryB] ⟨true, "0xabc", 1⟩ =
      ([exEntryA] ++ [exEntryB]).map (anchorIfPending "0xabc" 1) :=
  (C6_anchor_update_frame [exEntryA] [exEntryB] ⟨true, "0xabc", 1⟩
    (by decide) rfl).1

/-! ## Canonical encoder determinism (C4) -/

theorem strLtB_asymm : ∀ {x y : List Char},
    strLtB x y = true → strLtB y x = false := by
  intro x
  induction x with
  | nil => intro y h; cases y <;> simp_all [strLtB]
  | cons a as ih =>
      intro y h
      cases y with
      | nil => simp [strLtB] at h
      | cons b bs =>
          rw [strLtB] at h ⊢
          by_cases h1 : a.toNat < b.toNat
          · rw [if_neg (by omega), if_pos h1]
          · rw [if_neg h1] at h
            by_cases h2 : b.toNat < a.toNat
            · rw [if_pos h2] at h
              simp at h
            · rw [if_neg h2] at h
              rw [if_neg h2, if_neg h1]
              exact ih h

theorem strLtB_true_or : ∀ {x z : List Char} (y : List Char),
    strLtB x z = true → strLtB x y = true ∨ strLtB y z = true := by
  intro x
  induction x with
  | nil =>
      intro z y h
      cases z with
      | nil => simp [strLtB] at h
      | cons c cs =>
          cases y with
          | nil => right; simp [strLtB]
          | cons b bs => left; simp [strLtB]
  | cons a as ih =>
      intro z y h
      cases z with
      | nil => simp [strLtB] at h
      | cons c cs =>
          cases y with
          | nil => right; simp [strLtB]
          | cons b bs =>
              rw [strLtB] at h ⊢
              rw [strLtB]
              by_cases hab : a.toNat < b.toNat
              · left; rw [if_pos hab]
              · by_cases hba : b.toNat < a.toNat
                · right
                  by_cases hac : a.toNat < c.toNat
                  · rw [if_pos (by omega)]
                  · rw [if_neg hac] at h
                    by_cases hca : c.toNat < a.toNat
                    · rw [if_pos hca] at h
                      simp at h
                    · rw [if_neg hca] at h
                      rw [if_pos (by omega)]
                · have hEq : a.toNat = b.toNat := by omega
                  by_cases hac : a.toNat < c.toNat
                  · right; rw [if_pos (by omega)]
                  · rw [if_neg hac] at h
                    by_cases hca : c.toNat < a.toNat
                    · rw [if_pos hca] at h
                      simp at h
                    · rw [if_neg hca] at h
                      rcases ih bs h with hl | hr
                      · left
                        rw [if_neg hab, if_neg hba]
                        exact hl
                      · right
                        rw [if_neg (by omega), if_neg (by omega)]
                        exact hr

theorem strLtB_eq_of_not : ∀ {x y : List Char},
    strLtB x y = false → strLtB y x = false → x = y := by
  intro x
  induction x with
  | nil => intro y h _; cases y <;> simp_all [strLtB]
  | cons a as ih =>
      intro y h h'
      cases y with
      | nil => simp [strLtB] at h'
      | cons b bs =>
          rw [strLtB] at h h'
          by_cases hab : a.toNat < b.toNat
          · rw [if_pos hab] at h
            simp at h
          · by_cases hba : b.toNat < a.toNat
            · rw [if_pos hba] at h'
              simp at h'
            · rw [if_neg hab, if_neg hba] at h
              rw [if_neg hba, if_neg hab] at h'
              have hnn : a.toNat = b.toNat := by omega
              have hc : a = b := Char.eq_of_val_eq (UInt32.toNat.inj hnn)
              rw [hc, ih h h']

theorem keyLe_total (a b : String × String) : keyLe a b ∨ keyLe b a := by
  unfold keyLe
  cases h : keyLtB b a
  · left; rfl
  · right; exact strLtB_asymm h

theorem keyLe_trans {a b c : String × String}
    (h1 : keyLe a b) (h2 : keyLe b c) : keyLe a c := by
  unfold keyLe keyLtB at h1 h2 ⊢
  cases h : strLtB c.1.data a.1.data
  · rfl
  · rcases strLtB_true_or b.1.data h with hl | hr
    · rw [h2] at hl; cases hl
    · rw [h1] at hr; cases hr

theorem insertPair_perm (p : String × String) (l : List (String × String)) :
    List.Perm (insertPair p l) (p :: l) := by
  induction l with
  | nil => exact List.Perm.refl _
  | cons q rest ih =>
      rw [insertPair]
      split
      · exact List.Perm.refl _
      · exact (ih.cons q).trans (List.Perm.swap p q rest)

theorem sortPairs_perm (l : List (String × String)) :
    List.Perm (sortPairs l) l := by
  induction l with
  | nil => exact List.Perm.refl _
  | cons p rest ih =>
      exact (insertPair_perm p (sortPairs rest)).trans (ih.cons p)

theorem insertPair_sorted {p : String × String} {l : List (String × String)}
    (hs : List.Sorted keyLe l) : List.Sorted keyLe (insertPair p l) := by
  induction l with
  | nil => simp [insertPair]
  | cons q rest ih =>
      rw [List.sorted_cons] at hs
      rw [insertPair]
      split
      · next hlt =>
          rw [List.sorted_cons]
          refine ⟨?_, List.sorted_cons.mpr hs⟩
          intro b hb
          rcases List.mem_cons.mp hb with rfl | hb
          · exact strLtB_asymm hlt
          · exact keyLe_trans (strLtB_asymm hlt) (hs.1 b hb)
      · next hge =>
          rw [List.sorted_cons]
          refine ⟨?_, ih hs.2⟩
          intro b hb
          rcases List.mem_cons.mp
            ((insertPair_perm p rest).mem_iff.mp hb) with rfl | hb
          · exact Bool.of_not_eq_true hge
          · exact hs.1 b hb

theorem sortPairs_sorted (l : List (String × String)) :
    List.Sorted keyLe (sortPairs l) := by
  induction l with
  | nil => simp [sortPairs]
  | cons p rest ih => exact insertPair_sorted ih

theorem string_eq_of_data_eq {a b : String} (h : a.data = b.data) : a = b := by
  cases a
  cases b
  exact congrArg String.mk h

theorem sorted_keyLt_of_nodup {l : List (String × String)}
    (hs : List.Sorted keyLe l) (hnd : (l.map Prod.fst).Nodup) :
    List.Sorted keyLt l := by
  have hne : l.Pairwise (fun a b => a.1 ≠ b.1) := List.pairwise_map.mp hnd
  refine (hs.and hne).imp fun {a b} h => ?_
  unfold keyLe at h
  unfold keyLt keyLtB
  cases hab : strLtB a.1.data b.1.data
  · exact absurd (string_eq_of_data_eq (strLtB_eq_of_not hab h.1)) h.2
  · rfl

theorem sortPairs_eq_of_perm {l₁ l₂ : List (String × String)}
    (hperm : List.Perm l₁ l₂) (hnd : (l₁.map Prod.fst).Nodup) :
    sortPairs l₁ = sortPairs l₂ := by
  have hp1 := sortPairs_perm l₁
  have hp2 := sortPairs_perm l₂
  have hperm2 : List.Perm (sortPairs l₁) (sortPairs l₂) :=
    hp1.trans (hperm.trans hp2.symm)
  have hnd1 : ((sortPairs l₁).map Prod.fst).Nodup :=
    ((hp1.map Prod.fst).nodup_iff).mpr hnd
  have hnd2 : ((sortPairs l₂).map Prod.fst).Nodup :=
    ((hperm2.map Prod.fst).nodup_iff).mp hnd1
  have hanti : IsAntisymm (String × String) keyLt :=
    ⟨fun a b h1 h2 => absurd ((strLtB_asymm h1).symm.trans h2) (by simp)⟩
  exact @List.eq_of_perm_of_sorted _ _ hanti _ _ hperm2
    (sorted_keyLt_of_nodup (sortPairs_sorted l₁) hnd1)
    (sorted_keyLt_of_nodup (sortPairs_sorted l₂) hnd2)

theorem encFields_eq_map : (fs : PyFields) →
    encFields fs = (fieldsToList fs).map (fun kv => (kv.1, encVal kv.2))
  | .nil => rfl
  | .cons k v r => by
      rw [encFields, fieldsToList, List.map_cons, encFields_eq_map r]

theorem encVal_dict (fs : PyFields) :
    encVal (.dict fs) =
      "\x7b" ++ joinItems (sortPairs (encFields fs)) ++ "\x7d" := rfl

/-- C4 (amended): the encoder (`json.dumps` with `sort_keys=True`) is a
deterministic function that is independent of map insertion order — two
field lists that are permutations of each other (with duplicate-free keys)
encode to byte-identical output, and hence to equal hashes wherever the
payload is embedded. -/
theorem C4_sort_keys_order_independent (xs ys : PyFields)
    (hperm : List.Perm (fieldsToList xs) (fieldsToList ys))
    (hnd : ((fieldsToList xs).map Prod.fst).Nodup) :
    encVal (.dict xs) = encVal (.dict ys) ∧
    ∀ pid uid ts ph,
      generate_hash pid uid (.dict xs) ts ph =
        generate_hash pid uid (.dict ys) ts ph := by
  have hpermE : List.Perm (encFields xs) (encFields ys) := by
    rw [encFields_eq_map, encFields_eq_map]
    exact hperm.map _
  have hndE : ((encFields xs).map Prod.fst).Nodup := by
    rw [encFields_eq_map]
    simpa [List.map_map, Function.comp] using hnd
  have hsorted := sortPairs_eq_of_perm hpermE hndE
  have henc : encVal (.dict xs) = encVal (.dict ys) := by
    rw [encVal_dict, encVal_dict, hsorted]
  refine ⟨henc, fun pid uid ts ph => ?_⟩
  unfold generate_hash
  apply congrArg sha256HexOfString
  rw [encVal_dict, encVal_dict]
  simp only [encFields]
  rw [henc]

/-- C4 witness: swapping the insertion order of two keys leaves the encoded
bytes unchanged. -/
theorem C4_sort_keys_order_independent_witness :
    encVal (.dict (.cons "b" (.int 2) (.cons "a" (.str "v") .nil))) =
      encVal (.dict (.cons "a" (.str "v") (.cons "b" (.int 2) .nil))) :=
  (C4_sort_keys_order_independent
    (.cons "b" (.int 2) (.cons "a" (.str "v") .nil))
    (.cons "a" (.str "v") (.cons "b" (.int 2) .nil))
    (by decide) (by decide)).1

/-- C4 counterexample: the encoder relies on Python's default
numeric-to-string conversion, so the logically equal payloads
`{"heart_rate": 1}` (int) and `{"heart_rate": 1.0}` (float) — equal under
Python `==` — serialize to different bytes (`1` vs `1.0`), refuting the
claim that logically equal payloads always yield byte-identical output. -/
theorem C4_default_numeric_repr_counterexample :
    pyEq (.dict (.cons "heart_rate" (.int 1) .nil))
      (.dict (.cons "heart_rate" (.dec 10 1) .nil)) ∧
    encVal (.dict (.cons "heart_rate" (.int 1) .nil)) ≠
      encVal (.dict (.cons "heart_rate" (.dec 10 1) .nil)) := by
  constructor
  · show logicalView _ = logicalView _
    decide
  · decide

/-! ## Tamper detection (C9, C10) -/

/-- C9: after building a chain of correctly appended entries, mutating the
stored payload of exactly one referenced prediction (to a payload whose
recomputed hash differs) makes verification fail with exactly one
content-hash-mismatch error at that entry's position; no link-mismatch or
hash-mismatch error appears at any other position. -/
theorem C9_single_mutation_detected (pre : List PredInput) (x : PredInput)
    (post : List PredInput) (f' r' : PyVal)
    (hnd : ((pre ++ x :: post).map PredInput.prediction_id).Nodup)
    (hne : recomputedHash (mutatedPred x f' r') (chainEnd Option.none pre) ≠
      (entryFor x (chainEnd Option.none pre)).current_hash) :
    verifyErrorsOf
        (pre.map predOf ++ mutatedPred x f' r' :: post.map predOf)
        (buildChain (pre ++ x :: post)) =
      [.hashMismatch pre.length
        (recomputedHash (mutatedPred x f' r') (chainEnd Option.none pre))
        ((entryFor x (chainEnd Option.none pre)).current_hash)] ∧
    (verify_chain (pre.map predOf ++ mutatedPred x f' r' :: post.map predOf)
      (buildChain (pre ++ x :: post))).valid = false := by
  rw [List.map_append, List.map_cons, List.nodup_append] at hnd
  obtain ⟨hndPre, hndCons, hdisj⟩ := hnd
  rw [List.nodup_cons] at hndCons
  obtain ⟨hxPost, hndPost⟩ := hndCons
  have hxPre : x.prediction_id ∉ pre.map PredInput.prediction_id := by
    intro hmem
    exact hdisj hmem (List.mem_cons_self _ _)
  set preds' :=
    pre.map predOf ++ mutatedPred x f' r' :: post.map predOf with hpreds
  have hfindPre : ∀ z ∈ pre,
      findPrediction preds' z.prediction_id = some (predOf z) := by
    intro z hz
    rw [hpreds, findPrediction_append,
      findPrediction_map_predOf pre hndPre z hz]
    rfl
  have hfindX :
      findPrediction preds' x.prediction_id = some (mutatedPred x f' r') := by
    rw [hpreds, findPrediction_append, findPrediction_eq_none _ _
      (by rw [map_id_map_predOf]; exact hxPre)]
    exact findPrediction_cons_self _ _
  have hfindPost : ∀ z ∈ post,
      findPrediction preds' z.prediction_id = some (predOf z) := by
    intro z hz
    have hzPre : z.prediction_id ∉ pre.map PredInput.prediction_id := by
      intro hmem
      exact hdisj hmem
        (List.mem_cons_of_mem _ (List.mem_map_of_mem _ hz))
    have hzx : x.prediction_id ≠ z.prediction_id := by
      intro he
      exact hxPost (he ▸ List.mem_map_of_mem _ hz)
    rw [hpreds, findPrediction_append, findPrediction_eq_none _ _
      (by rw [map_id_map_predOf]; exact hzPre)]
    rw [Option.none_or]
    rw [findPrediction_cons_ne _ _ _ hzx]
    exact findPrediction_map_predOf post hndPost z hz
  have hchain : buildChain (pre ++ x :: post) =
      chainFrom Option.none pre ++
        (entryFor x (chainEnd Option.none pre) ::
          chainFrom (some (entryFor x (chainEnd Option.none pre)).current_hash)
            post) := by
    rw [buildChain_eq, chainFrom_append, chainFrom]
  have herr : verifyErrorsOf preds' (buildChain (pre ++ x :: post)) =
      [.hashMismatch pre.length
        (recomputedHash (mutatedPred x f' r') (chainEnd Option.none pre))
        ((entryFor x (chainEnd Option.none pre)).current_hash)] := by
    rw [verifyErrorsOf, hchain, verifyEntries_append,
      verifyEntries_chainFrom_clean preds' pre hfindPre Option.none 0,
      runPrev_chainFrom preds' pre hfindPre Option.none, chainFrom_length]
    simp only [List.nil_append, Nat.zero_add]
    rw [verifyEntries, entryFor_prediction_id]
    simp only [hfindX]
    rw [if_neg (by rw [entryFor_previous_hash]; simp)]
    rw [if_pos (by rw [entryFor_previous_hash]; exact hne)]
    rw [verifyEntries_chainFrom_clean preds' post hfindPost _ _]
    rw [entryFor_previous_hash]
    simp
  refine ⟨herr, ?_⟩
  rw [(verify_chain_spec preds' (buildChain (pre ++ x :: post))).1, herr]
  rfl

set_option maxRecDepth 1000000 in
/-- C9 witness: mutating the heart-rate feature of the second of two chained
predictions yields exactly the one hash-mismatch error at position 2. -/
theorem C9_single_mutation_detected_witness :
    verifyErrorsOf
        ([exInput1].map predOf ++
          mutatedPred exInput2
            (.dict (.cons "bp" (.dec 1205 1) (.cons "heart_rate" (.int 80) .nil)))
            exResult :: ([] : List PredInput).map predOf)
        (buildChain ([exInput1] ++ exInput2 :: [])) =
      [.hashMismatch 1
        (recomputedHash
          (mutatedPred exInput2
            (.dict (.cons "bp" (.dec 1205 1) (.cons "heart_rate" (.int 80) .nil)))
            exResult)
          (chainEnd Option.none [exInput1]))
        ((entryFor exInput2 (chainEnd Option.none [exInput1])).current_hash)] :=
  (C9_single_mutation_detected [exInput1] exInput2 []
    (.dict (.cons "bp" (.dec 1205 1) (.cons "heart_rate" (.int 80) .nil)))
    exResult (by decide) (by decide)).1

/-- C10: on an otherwise intact chain, when the prediction referenced at one
position is missing and the entry has a successor, the verifier reports the
missing prediction without advancing the maintained previous hash, so it
produces exactly two errors: a prediction-not-found error at that position
and a previous-hash link-mismatch error at the next position — even though
the stored links are unbroken. -/
theorem C10_missing_prediction_two_errors (pre : List PredInput)
    (x y : PredInput) (post : List PredInput)
    (hnd : ((pre ++ x :: y :: post).map PredInput.prediction_id).Nodup)
    (hlink : (some (entryFor x (chainEnd Option.none pre)).current_hash : Option String) ≠
      chainEnd Option.none pre) :
    verifyErrorsOf ((pre ++ y :: post).map predOf)
        (buildChain (pre ++ x :: y :: post)) =
      [.predictionNotFound pre.length x.prediction_id,
       .previousHashMismatch (pre.length + 1) (chainEnd Option.none pre)
         (some (entryFor x (chainEnd Option.none pre)).current_hash)] ∧
    (verify_chain ((pre ++ y :: post).map predOf)
      (buildChain (pre ++ x :: y :: post))).valid = false := by
  have hndSub : ((pre ++ y :: post).map PredInput.prediction_id).Nodup := by
    refine hnd.sublist (List.Sublist.map _ ?_)
    exact (List.sublist_cons_self x (y :: post)).append_left pre
  have hfindAll := findPrediction_map_predOf (pre ++ y :: post) hndSub
  set preds' := (pre ++ y :: post).map predOf with hpreds
  rw [List.map_append, List.map_cons, List.map_cons, List.nodup_append]
    at hnd
  obtain ⟨hndPre, hndCons, hdisj⟩ := hnd
  rw [List.nodup_cons] at hndCons
  obtain ⟨hxRest, _⟩ := hndCons
  have hxPre : x.prediction_id ∉ pre.map PredInput.prediction_id := by
    intro hmem
    exact hdisj hmem (List.mem_cons_self _ _)
  have hfindX : findPrediction preds' x.prediction_id = Option.none := by
    apply findPrediction_eq_none
    rw [hpreds, map_id_map_predOf, List.map_append, List.map_cons,
      List.mem_append, List.mem_cons]
    push_neg
    refine ⟨fun hmem => hxPre hmem, fun he => hxRest ?_, fun hmem => hxRest ?_⟩
    · exact List.mem_cons.mpr (Or.inl he)
    · exact List.mem_cons.mpr (Or.inr hmem)
  have hfindPre : ∀ z ∈ pre,
      findPrediction preds' z.prediction_id = some (predOf z) := fun z hz =>
    hfindAll z (List.mem_append_left _ hz)
  have hfindY : findPrediction preds' y.prediction_id = some (predOf y) :=
    hfindAll y (List.mem_append_right _ (List.mem_cons_self _ _))
  have hfindPost : ∀ z ∈ post,
      findPrediction preds' z.prediction_id = some (predOf z) := fun z hz =>
    hfindAll z (List.mem_append_right _ (List.mem_cons_of_mem _ hz))
  have hchain : buildChain (pre ++ x :: y :: post) =
      chainFrom Option.none pre ++
        (entryFor x (chainEnd Option.none pre) ::
          entryFor y
            (some (entryFor x (chainEnd Option.none pre)).current_hash) ::
          chainFrom
            (some (entryFor y
              (some (entryFor x (chainEnd Option.none pre)).current_hash)).current_hash)
            post) := by
    rw [buildChain_eq, chainFrom_append, chainFrom, chainFrom]
  have herr : verifyErrorsOf preds' (buildChain (pre ++ x :: y :: post)) =
      [.predictionNotFound pre.length x.prediction_id,
       .previousHashMismatch (pre.length + 1) (chainEnd Option.none pre)
         (some (entryFor x (chainEnd Option.none pre)).current_hash)] := by
    rw [verifyErrorsOf, hchain, verifyEntries_append,
      verifyEntries_chainFrom_clean preds' pre hfindPre Option.none 0,
      runPrev_chainFrom preds' pre hfindPre Option.none, chainFrom_length]
    simp only [List.nil_append, Nat.zero_add]
    rw [verifyEntries, entryFor_prediction_id]
    simp only [hfindX]
    rw [verifyEntries, entryFor_prediction_id]
    simp only [hfindY]
    rw [if_pos ⟨Nat.succ_pos _, by rw [entryFor_previous_hash]; exact hlink⟩]
    rw [if_neg (by rw [entryFor_previous_hash, recomputedHash_predOf]; simp)]
    rw [verifyEntries_chainFrom_clean preds' post hfindPost _ _]
    rw [entryFor_previous_hash]
    simp
  refine ⟨herr, ?_⟩
  rw [(verify_chain_spec preds' (buildChain (pre ++ x :: y :: post))).1, herr]
  rfl

/-- C10 witness: a two-entry chain whose first prediction is missing from
the store verifies with exactly the not-found error at position 1 and the
link-mismatch error at position 2. -/
theorem C10_missing_prediction_two_errors_witness :
    verifyErrorsOf (([] ++ exInput2 :: []).map predOf)
        (buildChain ([] ++ exInput1 :: exInput2 :: [])) =
      [.predictionNotFound 0 exInput1.prediction_id,
       .previousHashMismatch 1 (chainEnd Option.none [])
         (some (entryFor exInput1 (chainEnd Option.none [])).current_hash)] :=
  (C10_missing_prediction_two_errors [] exInput1 exInput2 []
    (by decide) (fun h => Option.noConfusion h)).1

end MediGuard
